import Mathlib

/-!
Shallow embedding of the muduo network-core data structures and operations
(byte buffer, scatter read, TCP connection send/shutdown/close paths,
acceptor EMFILE handling, socket accept), with theorems checking the
natural-language specification against the code.

Bytes are modelled as `Nat` values (the well-formed ones are `< 256`);
machine integers are `Nat` bit patterns reduced mod `2^w` where overflow
matters; buffer memory is a `List Nat` and the two indices are `Nat`s,
matching `std::vector<char>` plus `size_t readerIndex_ / writerIndex_`.
-/

namespace Muduo

/-! ## Byte-level helpers

`toBytesLE w v` is the `w`-byte little-endian memory image of the value `v`;
`fromBytesLE` is its inverse.  Network byte order (big-endian) is the
reverse of the little-endian image. -/
def toBytesLE : Nat → Nat → List Nat
  | 0, _ => []
  | n + 1, v => v % 256 :: toBytesLE n (v / 256)

def fromBytesLE : List Nat → Nat
  | [] => 0
  | b :: rest => b + 256 * fromBytesLE rest

/-- The `w`-byte big-endian (network-order) image of `v`. -/
def toBytesBE (w v : Nat) : List Nat := (toBytesLE w v).reverse

/-- Value of a big-endian byte sequence. -/
def fromBytesBE (l : List Nat) : Nat := fromBytesLE l.reverse

/-! ## List-memory helpers

`writeAt l pos src` overwrites `src.length` bytes of `l` starting at
`pos` (the effect of `std::copy(src, src+len, l.begin()+pos)`);
`resizeList l n` is `std::vector::resize(n)` (truncate or zero-extend);
`extract l pos n` reads `n` bytes starting at `pos`. -/
def writeAt (l : List Nat) (pos : Nat) (src : List Nat) : List Nat :=
  l.take pos ++ src ++ l.drop (pos + src.length)

def resizeList (l : List Nat) (n : Nat) : List Nat :=
  l.take n ++ List.replicate (n - l.length) 0

def extract (l : List Nat) (pos n : Nat) : List Nat :=
  (l.drop pos).take n

/-! ## Buffer (muduo/net/Buffer.h)

`buffer_` is `data`, `readerIndex_` is `readerIndex`, `writerIndex_` is
`writerIndex`.  `capacity` is `buffer_.size()`. -/
def kCheapPrepend : Nat := 8

def kInitialSize : Nat := 1024

structure Buffer where
  data : List Nat
  readerIndex : Nat
  writerIndex : Nat
  deriving Repr, DecidableEq

namespace Buffer

/-- `Buffer::Buffer(initialSize)`:
`buffer_(kCheapPrepend + initialSize), readerIndex_(kCheapPrepend),
writerIndex_(kCheapPrepend)`. -/
def mkBuffer (initialSize : Nat := kInitialSize) : Buffer :=
  { data := List.replicate (kCheapPrepend + initialSize) 0
    readerIndex := kCheapPrepend
    writerIndex := kCheapPrepend }

def capacity (b : Buffer) : Nat := b.data.length

/-- `readableBytes() = writerIndex_ - readerIndex_`. -/
def readableBytes (b : Buffer) : Nat := b.writerIndex - b.readerIndex

/-- `writableBytes() = buffer_.size() - writerIndex_`. -/
def writableBytes (b : Buffer) : Nat := b.capacity - b.writerIndex

/-- `prependableBytes() = readerIndex_`. -/
def prependableBytes (b : Buffer) : Nat := b.readerIndex

/-- The readable region `[readerIndex, writerIndex)` — what `peek()` points at. -/
def readable (b : Buffer) : List Nat := extract b.data b.readerIndex b.readableBytes

/-- The first `n` bytes at `peek()`. -/
def peekBytes (b : Buffer) (n : Nat) : List Nat := extract b.data b.readerIndex n

/-- `retrieveAll()`: reset both indices to `kCheapPrepend`. -/
def retrieveAll (b : Buffer) : Buffer :=
  { b with readerIndex := kCheapPrepend, writerIndex := kCheapPrepend }

/-- `retrieve(len)`: advance `readerIndex_` by `len`, or `retrieveAll` when
`len` is not strictly less than `readableBytes()`. -/
def retrieve (b : Buffer) (len : Nat) : Buffer :=
  if len < b.readableBytes then
    { b with readerIndex := b.readerIndex + len }
  else
    b.retrieveAll

/-- `hasWritten(len)`: `writerIndex_ += len`. -/
def hasWritten (b : Buffer) (len : Nat) : Buffer :=
  { b with writerIndex := b.writerIndex + len }

/-- `makeSpace(len)`: either `buffer_.resize(writerIndex_+len)` or compact the
readable content forward to `kCheapPrepend`. -/
def makeSpace (b : Buffer) (len : Nat) : Buffer :=
  if b.writableBytes + b.prependableBytes < len + kCheapPrepend then
    { b with data := resizeList b.data (b.writerIndex + len) }
  else
    let rdable := b.readableBytes
    { data := writeAt b.data kCheapPrepend (b.readable)
      readerIndex := kCheapPrepend
      writerIndex := kCheapPrepend + rdable }

/-- `ensureWritableBytes(len)`: `makeSpace(len)` when `writableBytes() < len`. -/
def ensureWritableBytes (b : Buffer) (len : Nat) : Buffer :=
  if b.writableBytes < len then b.makeSpace len else b

/-- `append(data, len)`: ensure room, copy at `beginWrite()`, `hasWritten`. -/
def append (b : Buffer) (src : List Nat) : Buffer :=
  let b1 := b.ensureWritableBytes src.length
  let b2 := { b1 with data := writeAt b1.data b1.writerIndex src }
  b2.hasWritten src.length

/-- `prepend(data, len)`: `readerIndex_ -= len`, copy into
`[readerIndex_, readerIndex_+len)`. -/
def prepend (b : Buffer) (src : List Nat) : Buffer :=
  let r := b.readerIndex - src.length
  { b with readerIndex := r, data := writeAt b.data r src }

/-- Well-formedness: `readerIndex_ ≤ writerIndex_ ≤ size` (the spec
invariant; `0 ≤` is implicit in `Nat`), strengthened by
`kCheapPrepend ≤ writerIndex_`, which every operation of the class
maintains and which `retrieveAll` needs. -/
def wf (b : Buffer) : Prop :=
  kCheapPrepend ≤ b.writerIndex ∧ b.readerIndex ≤ b.writerIndex ∧
    b.writerIndex ≤ b.data.length

instance (b : Buffer) : Decidable b.wf := by unfold wf; infer_instance

end Buffer

/-! ## Network byte order

Modelled from the spec: `muduo/net/Endian.h` is not under `src/` (only its
callers are).  Per the spec, "integer append/peek/read use network byte
order": `sockets::hostToNetworkN` converts a host value to network
(big-endian) order and `networkToHostN` converts back; on a big-endian host
both are the identity, on a little-endian host both swap the bytes of the
`w`-byte value.  The host-memory image of the converted value is what
`append(&beN, sizeof beN)` copies and what `::memcpy(&beN, peek(), ...)`
reads back. -/
inductive ByteOrder
  | big
  | little
  deriving Repr, DecidableEq

/-- Swap the byte order of a `w`-byte value. -/
def byteSwap (w v : Nat) : Nat := fromBytesLE ((toBytesLE w v).reverse)

/-- Modelled from the spec: `sockets::hostToNetworkN` of `muduo/net/Endian.h`. -/
def hostToNetwork (e : ByteOrder) (w v : Nat) : Nat :=
  match e with
  | .big => v
  | .little => byteSwap w v

/-- Modelled from the spec: `sockets::networkToHostN` of `muduo/net/Endian.h`. -/
def networkToHost (e : ByteOrder) (w v : Nat) : Nat :=
  match e with
  | .big => v
  | .little => byteSwap w v

/-- The `w`-byte host-memory image of a value (what a pointer to it exposes). -/
def hostMemBytes (e : ByteOrder) (w v : Nat) : List Nat :=
  match e with
  | .big => (toBytesLE w v).reverse
  | .little => toBytesLE w v

/-- The value whose `w`-byte host-memory image is `bs` (the result of
`memcpy`ing `bs` into an integer variable). -/
def hostMemValue (e : ByteOrder) (bs : List Nat) : Nat :=
  match e with
  | .big => fromBytesLE bs.reverse
  | .little => fromBytesLE bs

namespace Buffer

/-- `appendIntN(x)` (`w` bytes, `w*8` bits): convert to network order with
`hostToNetworkN` and `append` the converted value's memory image. -/
def appendInt (e : ByteOrder) (w : Nat) (b : Buffer) (x : Nat) : Buffer :=
  b.append (hostMemBytes e w (hostToNetwork e w x))

/-- `peekIntN()`: `memcpy` the first `w` bytes at `peek()` into an integer and
convert with `networkToHostN`; a `const` member, it does not touch the buffer. -/
def peekInt (e : ByteOrder) (w : Nat) (b : Buffer) : Nat :=
  networkToHost e w (hostMemValue e (b.peekBytes w))

/-- `retrieveIntN()` = `retrieve(sizeof(intN_t))`. -/
def retrieveInt (w : Nat) (b : Buffer) : Buffer := b.retrieve w

/-- `readIntN()`: `peekIntN()` then `retrieveIntN()`, returning the value. -/
def readInt (e : ByteOrder) (w : Nat) (b : Buffer) : Nat × Buffer :=
  (b.peekInt e w, b.retrieveInt w)

/-- Writing `src` at the writable tail and advancing `writerIndex_` by its
length (the common step of `append` after `ensureWritableBytes`, and of
`readFd` when the bytes fit in the writable region). -/
def writeTail (b : Buffer) (src : List Nat) : Buffer :=
  { b with
    data := writeAt b.data b.writerIndex src,
    writerIndex := b.writerIndex + src.length }

end Buffer

/-- Outcome of the `readv(2)` call inside `Buffer::readFd`: an error carrying
the `errno` value, or the byte sequence the kernel delivered (filling
`vec[0]` — the buffer's writable tail — before `vec[1]` — the 64 KiB
`extrabuf`). -/
inductive ReadvResult
  | err (errno : Int)
  | ok (bytes : List Nat)
  deriving Repr, DecidableEq

namespace Buffer

/-- `sizeof extrabuf`: `char extrabuf[65536]` (64 KiB). -/
def extrabufSize : Nat := 65536

/-- `const int iovcnt = (writable < sizeof extrabuf) ? 2 : 1`. -/
def readFdIovcnt (b : Buffer) : Nat :=
  if b.writableBytes < extrabufSize then 2 else 1

/-- Total byte capacity of the iovec array handed to `readv`: `vec[0]` is the
writable tail (`iov_len = writableBytes()`), `vec[1]` — used only when
`iovcnt = 2` — is the 64 KiB `extrabuf`.  `readv` never delivers more. -/
def readFdIovCapacity (b : Buffer) : Nat :=
  if b.writableBytes < extrabufSize then b.writableBytes + extrabufSize
  else b.writableBytes

/-- `Buffer::readFd(fd, savedErrno)`: returns the updated buffer, the value
`n` that `readv` returned, and what was stored in `*savedErrno` (`none` when
the error branch was not taken).  `n < 0`: store `errno`, indices untouched;
`n ≤ writable`: `writerIndex_ += n`; otherwise the tail was filled
(`writerIndex_ = buffer_.size()`) and the `n - writable` bytes that landed in
`extrabuf` are absorbed with `append`. -/
def readFd (b : Buffer) (res : ReadvResult) : Buffer × Int × Option Int :=
  match res with
  | .err e => (b, -1, some e)
  | .ok bytes =>
    let wrtble := b.writableBytes
    let n := bytes.length
    if n ≤ wrtble then
      (b.writeTail bytes, (n : Int), none)
    else
      let bFull : Buffer :=
        { b with
          data := writeAt b.data b.writerIndex (bytes.take wrtble),
          writerIndex := b.data.length }
      (bFull.append (bytes.drop wrtble), (n : Int), none)

end Buffer

/-! ## Operation sequences over a buffer (for the global index invariant) -/
/-- One mutating `Buffer` operation together with the data/outside results it
is invoked with. -/
inductive BufOp
  | append (src : List Nat)
  | prepend (src : List Nat)
  | retrieve (len : Nat)
  | retrieveAll
  | appendInt (e : ByteOrder) (w : Nat) (x : Nat)
  | readInt (e : ByteOrder) (w : Nat)
  | hasWritten (len : Nat)
  | makeSpace (len : Nat)
  | readFd (res : ReadvResult)
  deriving Repr, DecidableEq

/-- The caller obligations the source states for each operation:
`retrieve`: `assert(len <= readableBytes())`; `prepend`:
`assert(len <= prependableBytes())`; `readIntN`:
`assert(readableBytes() >= sizeof(intN_t))`; `hasWritten`:
`assert(len <= writableBytes())`; `makeSpace` is only reached with
`writableBytes() < len`; `readv` delivers at most the iovec capacity. -/
def BufOp.valid (b : Buffer) : BufOp → Prop
  | .append _ => True
  | .prepend src => src.length ≤ b.prependableBytes
  | .retrieve len => len ≤ b.readableBytes
  | .retrieveAll => True
  | .appendInt _ _ _ => True
  | .readInt _ w => w ≤ b.readableBytes
  | .hasWritten len => len ≤ b.writableBytes
  | .makeSpace len => b.writableBytes < len
  | .readFd res =>
    match res with
    | .err _ => True
    | .ok bytes => bytes.length ≤ b.readFdIovCapacity

def BufOp.apply (b : Buffer) : BufOp → Buffer
  | .append src => b.append src
  | .prepend src => b.prepend src
  | .retrieve len => b.retrieve len
  | .retrieveAll => b.retrieveAll
  | .appendInt e w x => b.appendInt e w x
  | .readInt e w => (b.readInt e w).2
  | .hasWritten len => b.hasWritten len
  | .makeSpace len => b.makeSpace len
  | .readFd res => (b.readFd res).1

def applyOps (b : Buffer) : List BufOp → Buffer
  | [] => b
  | op :: rest => applyOps (op.apply b) rest

def validOps (b : Buffer) : List BufOp → Prop
  | [] => True
  | op :: rest => op.valid b ∧ validOps (op.apply b) rest

instance BufOp.validDecidable (b : Buffer) (op : BufOp) : Decidable (op.valid b) := by
  cases op with
  | readFd res => cases res <;> simp only [BufOp.valid] <;> infer_instance
  | _ => simp only [BufOp.valid] <;> infer_instance

instance validOpsDecidable : (b : Buffer) → (ops : List BufOp) → Decidable (validOps b ops)
  | _, [] => isTrue trivial
  | b, op :: rest =>
    @instDecidableAnd _ _ (BufOp.validDecidable b op)
      (validOpsDecidable (op.apply b) rest)

/-! ## TCP connection: send / shutdown / write-drain / close paths
(muduo/net/TcpConnection.cc)

The channel write-interest flag (`channel_->isWriting()`,
`enableWriting`, `disableWriting`, `disableAll`) is modelled from the spec as
a boolean, since `Channel.h`/`Channel.cc` are not under `src/`: §4.2 —
"`enableReading/enableWriting/disableReading/disableWriting/disableAll`
mutate the interest mask".  Likewise `loop_->runInLoop`/`queueInLoop` only
schedule a task; scheduling shows up as an emitted effect. -/
/-- `TcpConnection::StateE`. -/
inductive StateE
  | kDisconnected
  | kConnecting
  | kConnected
  | kDisconnecting
  deriving Repr, DecidableEq

/-- Outcome of a `sockets::write` call: byte count, or `-1` with `errno`. -/
inductive WriteResult
  | ok (n : Nat)
  | err (errno : Nat)
  deriving Repr, DecidableEq

/-- Linux errno values used by the send path. -/
def EWOULDBLOCK : Nat := 11

def EPIPE : Nat := 32

def ECONNRESET : Nat := 104

/-- The per-connection data the modelled paths read and write:
`state_`, the channel's write-interest flag, `outputBuffer_`,
whether `writeCompleteCallback_` / `highWaterMarkCallback_` are installed,
and `highWaterMark_`. -/
structure Conn where
  state : StateE
  channelWriting : Bool
  outputBuffer : Buffer
  hasWriteCompleteCb : Bool
  hasHighWaterCb : Bool
  highWaterMark : Nat
  deriving Repr, DecidableEq

/-- Externally visible actions of a connection step, in program order. -/
inductive Effect
  | socketWrite (len : Nat)
  | queueWriteComplete
  | queueHighWater (n : Nat)
  | enableWriting
  | shutdownWrite
  | runShutdownInLoop
  | queueForceCloseInLoop
  | disableAll
  | connectionCbCall
  | closeCbCall
  | queueSendInLoop (data : List Nat)
  deriving Repr, DecidableEq

/-- The direct-write guard of `sendInLoop`:
`!channel_->isWriting() && outputBuffer_.readableBytes() == 0`. -/
def sendDirect (c : Conn) : Bool :=
  !c.channelWriting && c.outputBuffer.readableBytes == 0

/-- `nwrote` after the direct-write section of `sendInLoop`: the count written
on success, `0` when the write failed or was not attempted. -/
def sendNwrote (c : Conn) (wres : WriteResult) : Nat :=
  if sendDirect c then
    match wres with
    | .ok n => n
    | .err _ => 0
  else 0

/-- `faultError` after the direct-write section: a failed direct write with
`errno` ∉ {`EWOULDBLOCK`} and ∈ {`EPIPE`, `ECONNRESET`}. -/
def sendFault (c : Conn) (wres : WriteResult) : Bool :=
  if sendDirect c then
    match wres with
    | .ok _ => false
    | .err e => if e = EWOULDBLOCK then false else (e == EPIPE || e == ECONNRESET)
  else false

/-- `remaining = len - nwrote` after the direct-write section. -/
def sendRemaining (c : Conn) (data : List Nat) (wres : WriteResult) : Nat :=
  data.length - sendNwrote c wres

/-- The direct `sockets::write` attempt, when one is made. -/
def sendDirectEffs (c : Conn) (data : List Nat) : List Effect :=
  if sendDirect c then [Effect.socketWrite data.length] else []

/-- The direct path's write-complete queueing
(`remaining == 0 && writeCompleteCallback_`). -/
def sendWcEffs (c : Conn) (data : List Nat) (wres : WriteResult) : List Effect :=
  if (sendDirect c && (match wres with
      | WriteResult.ok n => data.length - n == 0
      | WriteResult.err _ => false) && c.hasWriteCompleteCb) = true then
    [Effect.queueWriteComplete]
  else []

/-- The buffering path's high-water queueing
(`oldLen + remaining >= highWaterMark_ && oldLen < highWaterMark_ &&
highWaterMarkCallback_`), with `oldLen = outputBuffer_.readableBytes()`. -/
def sendHwEffs (c : Conn) (data : List Nat) (wres : WriteResult) : List Effect :=
  if c.highWaterMark ≤ c.outputBuffer.readableBytes + sendRemaining c data wres
      ∧ c.outputBuffer.readableBytes < c.highWaterMark
      ∧ c.hasHighWaterCb then
    [Effect.queueHighWater (c.outputBuffer.readableBytes + sendRemaining c data wres)]
  else []

/-- The buffering path's `enableWriting` (`if (!channel_->isWriting())`). -/
def sendEnableEffs (c : Conn) : List Effect :=
  if c.channelWriting then [] else [Effect.enableWriting]

/-- `TcpConnection::sendInLoop(data, len)`.  `wres` is the outcome of the
`sockets::write` call should one be attempted (the direct-write branch runs
only when the channel has no write interest and the output buffer is
empty).  Returns the updated connection and the effects in program order. -/
def sendInLoop (c : Conn) (data : List Nat) (wres : WriteResult) :
    Conn × List Effect :=
  if c.state = StateE.kDisconnected then (c, [])
  else if sendFault c wres = false ∧ 0 < sendRemaining c data wres then
    ({ c with
       outputBuffer := c.outputBuffer.append (data.drop (sendNwrote c wres)),
       channelWriting := true },
     sendDirectEffs c data ++ sendWcEffs c data wres
       ++ sendHwEffs c data wres ++ sendEnableEffs c)
  else
    (c, sendDirectEffs c data ++ sendWcEffs c data wres)

/-- `TcpConnection::send(message)`: only when `kConnected`; run `sendInLoop`
synchronously on the loop thread, otherwise schedule it via `runInLoop`. -/
def send (c : Conn) (data : List Nat) (wres : WriteResult) (inLoopThread : Bool) :
    Conn × List Effect :=
  if c.state = StateE.kConnected then
    if inLoopThread then sendInLoop c data wres
    else (c, [Effect.queueSendInLoop data])
  else (c, [])

/-- `TcpConnection::shutdown()`: when `kConnected`, set `kDisconnecting` and
schedule `shutdownInLoop` on the loop. -/
def shutdown (c : Conn) : Conn × List Effect :=
  if c.state = StateE.kConnected then
    ({ c with state := StateE.kDisconnecting }, [Effect.runShutdownInLoop])
  else (c, [])

/-- `TcpConnection::shutdownInLoop()`: half-close the socket for write only
when the channel is not watching writability. -/
def shutdownInLoop (c : Conn) : Conn × List Effect :=
  if ¬c.channelWriting then (c, [Effect.shutdownWrite]) else (c, [])

/-- `TcpConnection::handleWrite()`: with write interest on, write from the
output buffer front; on a positive count `retrieve` it, and when the buffer
drains to empty disable write interest, queue the write-complete callback
when installed, and run `shutdownInLoop` when the state is
`kDisconnecting`. -/
def handleWrite (c : Conn) (wres : WriteResult) : Conn × List Effect :=
  if c.channelWriting then
    let attempt := [Effect.socketWrite c.outputBuffer.readableBytes]
    match wres with
    | .ok n =>
      if 0 < n then
        let c1 : Conn := { c with outputBuffer := c.outputBuffer.retrieve n }
        if c1.outputBuffer.readableBytes = 0 then
          let c2 : Conn := { c1 with channelWriting := false }
          let wcEffs : List Effect :=
            if c.hasWriteCompleteCb then [Effect.queueWriteComplete] else []
          let r := shutdownInLoop c2
          if c2.state = StateE.kDisconnecting then
            (r.1, attempt ++ wcEffs ++ r.2)
          else (c2, attempt ++ wcEffs)
        else (c1, attempt)
      else (c, attempt)
    | .err _ => (c, attempt)
  else (c, [])

/-- `TcpConnection::handleClose()`: set `kDisconnected`, detach all channel
interest, then the connection callback and the close callback. -/
def handleClose (c : Conn) : Conn × List Effect :=
  ({ c with state := StateE.kDisconnected, channelWriting := false },
   [Effect.disableAll, Effect.connectionCbCall, Effect.closeCbCall])

/-- `TcpConnection::forceClose()`: only when `kConnected` or
`kDisconnecting`, set `kDisconnecting` and queue `forceCloseInLoop`. -/
def forceClose (c : Conn) : Conn × List Effect :=
  if c.state = StateE.kConnected ∨ c.state = StateE.kDisconnecting then
    ({ c with state := StateE.kDisconnecting }, [Effect.queueForceCloseInLoop])
  else (c, [])

/-- `TcpConnection::forceCloseInLoop()`: when still
`kConnected`/`kDisconnecting`, run `handleClose` — "as if we received 0 byte
in handleRead()". -/
def forceCloseInLoop (c : Conn) : Conn × List Effect :=
  if c.state = StateE.kConnected ∨ c.state = StateE.kDisconnecting then
    handleClose c
  else (c, [])

/-- One in-loop step of the send/shutdown/write-drain paths, the operations
claim C5 quantifies over.  The `sockets::write` outcomes are inputs. -/
inductive ConnOp
  | sendInLoop (data : List Nat) (wres : WriteResult)
  | shutdown
  | shutdownInLoop
  | handleWrite (wres : WriteResult)
  deriving Repr, DecidableEq

def ConnOp.step (c : Conn) : ConnOp → Conn × List Effect
  | .sendInLoop data wres => Muduo.sendInLoop c data wres
  | .shutdown => Muduo.shutdown c
  | .shutdownInLoop => Muduo.shutdownInLoop c
  | .handleWrite wres => Muduo.handleWrite c wres

/-- Contract of `sockets::write`: it writes at most the count requested. -/
def ConnOp.valid (c : Conn) : ConnOp → Prop
  | .sendInLoop data wres =>
    match wres with
    | WriteResult.ok n => n ≤ data.length
    | WriteResult.err _ => True
  | .handleWrite wres =>
    match wres with
    | WriteResult.ok n => n ≤ c.outputBuffer.readableBytes
    | WriteResult.err _ => True
  | _ => True

instance ConnOp.validDecidable (c : Conn) (op : ConnOp) : Decidable (op.valid c) := by
  cases op with
  | sendInLoop data wres => cases wres <;> simp only [ConnOp.valid] <;> infer_instance
  | handleWrite wres => cases wres <;> simp only [ConnOp.valid] <;> infer_instance
  | _ => simp only [ConnOp.valid] <;> infer_instance

/-- The inductive connection invariant: the output buffer is well-formed, and
whenever it holds unsent bytes the channel's write interest is on. -/
def ConnInv (c : Conn) : Prop :=
  c.outputBuffer.wf ∧ (0 < c.outputBuffer.readableBytes → c.channelWriting = true)

/-! ## Acceptor (Acceptor.cc) -/
def EMFILE : Nat := 24

/-- Kernel/syscall actions `Acceptor::handleRead` performs, in order. -/
inductive AcceptorSys
  | closeFd (fd : Int)
  | acceptFd (listenFd : Int)
  | openDevNull
  | newConnectionCb (connfd : Int)
  | socketsClose (connfd : Int)
  deriving Repr, DecidableEq

/-- Acceptor state: the listening descriptor, the pre-opened idle placeholder
descriptor `idleFd_`, the kernel listen-queue length, and whether a
new-connection callback is installed. -/
structure AcceptorSt where
  listenFd : Int
  idleFd : Int
  pending : Nat
  hasNewConnectionCb : Bool
  deriving Repr, DecidableEq

/-- Outcome of `acceptSocket_.accept(&peerAddr)` inside `handleRead`.  In the
error case, `drainedFd` is what the raw `::accept(fd, NULL, NULL)` of the
`EMFILE` branch returns and `reopenedFd` the new `/dev/null` descriptor (both
unused on other errno values). -/
inductive AcceptOutcome
  | ok (connfd : Int)
  | err (errno : Nat) (drainedFd : Int) (reopenedFd : Int)
  deriving Repr, DecidableEq

/-- `Acceptor::handleRead()`: accept one pending connection; on success hand
the descriptor to the callback (or close it immediately when none is set);
on `EMFILE` run the placeholder dance: close `idleFd_`, `::accept` to drain
the pending connection, close it, reopen `/dev/null`. -/
def acceptorHandleRead (a : AcceptorSt) (res : AcceptOutcome) :
    AcceptorSt × List AcceptorSys :=
  match res with
  | .ok connfd =>
    if a.hasNewConnectionCb then
      ({ a with pending := a.pending - 1 }, [AcceptorSys.newConnectionCb connfd])
    else
      ({ a with pending := a.pending - 1 }, [AcceptorSys.socketsClose connfd])
  | .err e drainedFd reopenedFd =>
    if e = EMFILE then
      ({ a with idleFd := reopenedFd, pending := a.pending - 1 },
       [AcceptorSys.closeFd a.idleFd, AcceptorSys.acceptFd a.listenFd,
        AcceptorSys.closeFd drainedFd, AcceptorSys.openDevNull])
    else (a, [])

/-! ## Socket::accept (Socket.cc / SocketsOps.cc) -/
/-- The `struct sockaddr_in6` contents relevant to the model. -/
structure SockAddr6 where
  port : Nat
  addrBytes : List Nat
  deriving Repr, DecidableEq

/-- `memZero(&addr, sizeof addr)`. -/
def zeroSockAddr6 : SockAddr6 := { port := 0, addrBytes := List.replicate 16 0 }

/-- Outcome of the kernel `accept4` underlying `sockets::accept`: a fresh
descriptor plus the peer address stored through the out-pointer, or `-1`
with an expected (non-fatal) `errno` — on unexpected values `sockets::accept`
aborts via `LOG_FATAL` and does not return. -/
inductive KernelAccept
  | ok (connfd : Nat) (peer : SockAddr6)
  | err (errno : Nat)
  deriving Repr, DecidableEq

/-- `sockets::accept(sockfd, &addr)`: the returned descriptor and the final
contents of `addr` (zero-initialized by the caller, overwritten by the kernel
only on success). -/
def socketsAccept (res : KernelAccept) : Int × SockAddr6 :=
  match res with
  | .ok connfd peer => ((connfd : Int), peer)
  | .err _ => (-1, zeroSockAddr6)

/-- `Socket::accept(peeraddr)`: zeroed local `addr`, `sockets::accept`, and
`peeraddr->setSockAddrInet6(addr)` only when `connfd >= 0`; returns the
descriptor and the final value of `*peeraddr`. -/
def socketAccept (res : KernelAccept) (peeraddr : SockAddr6) : Int × SockAddr6 :=
  let r := socketsAccept res
  if 0 ≤ r.1 then (r.1, r.2) else (r.1, peeraddr)

/-! ## Typed-integer operation sequences (for the FIFO round-trip claim) -/
/-- A typed append/read: byte width (`1`, `2`, `4` or `8`) and value. -/
structure IntWrite where
  width : Nat
  value : Nat
  deriving Repr, DecidableEq

/-- The network-order byte image of a sequence of typed appends. -/
def wsEncode (ws : List IntWrite) : List Nat :=
  (ws.map fun iw => toBytesBE iw.width iw.value).flatten

def appendInts (e : ByteOrder) (b : Buffer) : List IntWrite → Buffer
  | [] => b
  | iw :: rest => appendInts e (b.appendInt e iw.width iw.value) rest

def readInts (e : ByteOrder) (b : Buffer) : List IntWrite → List Nat
  | [] => []
  | iw :: rest =>
    let r := b.readInt e iw.width
    r.1 :: readInts e r.2 rest

/-! ## Theorems -/

theorem toBytesLE_length (w v : Nat) : (toBytesLE w v).length = w := by
  induction w generalizing v with
  | zero => rfl
  | succ n ih => simp [toBytesLE, ih]

theorem toBytesLE_lt (w v : Nat) : ∀ b ∈ toBytesLE w v, b < 256 := by
  induction w generalizing v with
  | zero => intro b hb; simp [toBytesLE] at hb
  | succ n ih =>
    intro b hb
    simp only [toBytesLE, List.mem_cons] at hb
    rcases hb with h | h
    · omega
    · exact ih _ _ h

theorem fromBytesLE_toBytesLE (w v : Nat) (h : v < 256 ^ w) :
    fromBytesLE (toBytesLE w v) = v := by
  induction w generalizing v with
  | zero =>
    simp [toBytesLE, fromBytesLE]
    omega
  | succ n ih =>
    have hdiv : v / 256 < 256 ^ n := by
      rw [Nat.div_lt_iff_lt_mul (by norm_num : 0 < 256)]
      calc v < 256 ^ (n + 1) := h
        _ = 256 ^ n * 256 := by ring
    simp only [toBytesLE, fromBytesLE, ih (v / 256) hdiv]
    omega

theorem toBytesLE_fromBytesLE (l : List Nat) (h : ∀ b ∈ l, b < 256) :
    toBytesLE l.length (fromBytesLE l) = l := by
  induction l with
  | nil => rfl
  | cons b rest ih =>
    have hb : b < 256 := h b (List.mem_cons_self _ _)
    have hrest : ∀ x ∈ rest, x < 256 := fun x hx => h x (List.mem_cons_of_mem _ hx)
    simp only [List.length_cons, toBytesLE, fromBytesLE]
    have hmod : (b + 256 * fromBytesLE rest) % 256 = b := by omega
    have hdiv : (b + 256 * fromBytesLE rest) / 256 = fromBytesLE rest := by omega
    rw [hmod, hdiv, ih hrest]

theorem fromBytesLE_lt (l : List Nat) (h : ∀ b ∈ l, b < 256) :
    fromBytesLE l < 256 ^ l.length := by
  induction l with
  | nil => simp [fromBytesLE]
  | cons b rest ih =>
    have hb : b < 256 := h b (List.mem_cons_self _ _)
    have hrest := ih (fun x hx => h x (List.mem_cons_of_mem _ hx))
    simp only [fromBytesLE, List.length_cons, pow_succ]
    calc b + 256 * fromBytesLE rest < 256 + 256 * fromBytesLE rest := by omega
      _ = 256 * (fromBytesLE rest + 1) := by ring
      _ ≤ 256 * 256 ^ rest.length := by
          have : fromBytesLE rest + 1 ≤ 256 ^ rest.length := hrest
          exact Nat.mul_le_mul_left _ this
      _ = 256 ^ rest.length * 256 := by ring

theorem fromBytesBE_toBytesBE (w v : Nat) (h : v < 256 ^ w) :
    fromBytesBE (toBytesBE w v) = v := by
  simp only [fromBytesBE, toBytesBE, List.reverse_reverse]
  exact fromBytesLE_toBytesLE w v h

theorem toBytesBE_length (w v : Nat) : (toBytesBE w v).length = w := by
  simp [toBytesBE, toBytesLE_length]

theorem writeAt_length (l : List Nat) (pos : Nat) (src : List Nat)
    (h : pos + src.length ≤ l.length) : (writeAt l pos src).length = l.length := by
  simp only [writeAt, List.length_append, List.length_take, List.length_drop]
  omega

theorem resizeList_length (l : List Nat) (n : Nat) : (resizeList l n).length = n := by
  simp only [resizeList, List.length_append, List.length_take, List.length_replicate]
  omega

theorem extract_writeAt_self (l : List Nat) (pos : Nat) (src : List Nat)
    (hpos : pos ≤ l.length) :
    extract (writeAt l pos src) pos src.length = src := by
  simp only [extract, writeAt]
  have htl : (l.take pos).length = pos := by simp [List.length_take]; omega
  rw [List.drop_append_of_le_length (by simp [List.length_take]; omega)]
  rw [List.drop_left' htl]
  exact List.take_left' rfl

theorem extract_writeAt_before (l : List Nat) (pos : Nat) (src : List Nat)
    (p n : Nat) (h : p + n ≤ pos) (hpos : pos ≤ l.length) :
    extract (writeAt l pos src) p n = extract l p n := by
  simp only [extract, writeAt]
  rw [List.append_assoc]
  rw [List.drop_append_of_le_length (by simp [List.length_take]; omega)]
  rw [List.take_append_of_le_length
    (by simp only [List.length_drop, List.length_take]; omega)]
  rw [List.drop_take, List.take_take]
  congr 1
  omega

theorem extract_resizeList (l : List Nat) (m pos n : Nat)
    (h1 : pos + n ≤ l.length) (h2 : pos + n ≤ m) :
    extract (resizeList l m) pos n = extract l pos n := by
  simp only [extract, resizeList]
  rw [List.drop_append_of_le_length (by simp [List.length_take]; omega)]
  rw [List.take_append_of_le_length
    (by simp only [List.length_drop, List.length_take]; omega)]
  rw [List.drop_take, List.take_take]
  congr 1
  omega

theorem extract_split (l : List Nat) (pos a b : Nat) :
    extract l pos (a + b) = extract l pos a ++ extract (l.drop (pos + a)) 0 b := by
  simp only [extract, List.take_add, List.drop_drop, List.drop_zero, Nat.zero_add,
    Nat.add_zero]

theorem extract_zero_eq_take (l : List Nat) (n : Nat) :
    extract l 0 n = l.take n := by
  simp [extract]

theorem extract_length (l : List Nat) (pos n : Nat) (h : pos + n ≤ l.length) :
    (extract l pos n).length = n := by
  simp only [extract, List.length_take, List.length_drop]
  omega

namespace Buffer

theorem wf_mkBuffer (n : Nat) : (mkBuffer n).wf := by
  simp [wf, mkBuffer, kCheapPrepend]

theorem readable_length (b : Buffer) (h : b.wf) :
    b.readable.length = b.readableBytes := by
  obtain ⟨h0, h1, h2⟩ := h
  apply extract_length
  simp only [readableBytes]
  omega

theorem wf_retrieve (b : Buffer) (len : Nat) (h : b.wf) (hlen : len ≤ b.readableBytes) :
    (b.retrieve len).wf := by
  obtain ⟨h0, h1, h2⟩ := h
  by_cases hc : len < b.readableBytes
  · simp only [retrieve, if_pos hc, wf]
    simp only [readableBytes] at hc
    exact ⟨h0, by omega, h2⟩
  · simp only [retrieve, if_neg hc, retrieveAll, wf]
    exact ⟨le_refl _, le_refl _, by omega⟩

theorem retrieve_readable (b : Buffer) (len : Nat) (h : b.wf)
    (hlen : len ≤ b.readableBytes) :
    (b.retrieve len).readable = b.readable.drop len := by
  obtain ⟨h0, h1, h2⟩ := h
  by_cases hc : len < b.readableBytes
  · have hrw : b.retrieve len = { b with readerIndex := b.readerIndex + len } := by
      simp [retrieve, hc]
    rw [hrw]
    simp only [readable, readableBytes, extract]
    rw [List.drop_take, List.drop_drop]
    have e1 : b.writerIndex - b.readerIndex - len = b.writerIndex - (b.readerIndex + len) := by
      omega
    rw [e1]
  · have hlen' : len = b.readableBytes := by omega
    subst hlen'
    have hrw : b.retrieve b.readableBytes = b.retrieveAll := by
      simp [retrieve]
    rw [hrw]
    have hnil : b.readable.drop b.readableBytes = [] := by
      rw [List.drop_eq_nil_iff, readable_length b ⟨h0, h1, h2⟩]
    rw [hnil]
    simp [retrieveAll, readable, readableBytes, extract]

theorem wf_hasWritten (b : Buffer) (len : Nat) (h : b.wf)
    (hlen : len ≤ b.writableBytes) : (b.hasWritten len).wf := by
  obtain ⟨h0, h1, h2⟩ := h
  simp only [hasWritten, wf, writableBytes, capacity] at *
  omega

theorem wf_makeSpace (b : Buffer) (len : Nat) (h : b.wf)
    (hlt : b.writableBytes < len) : (b.makeSpace len).wf := by
  obtain ⟨h0, h1, h2⟩ := h
  have hr : b.readable.length = b.writerIndex - b.readerIndex :=
    readable_length b ⟨h0, h1, h2⟩
  simp only [makeSpace, writableBytes, prependableBytes, capacity] at *
  split
  · refine ⟨h0, h1, ?_⟩
    simp only [resizeList_length]
    omega
  · refine ⟨?_, ?_, ?_⟩
    · simp only [readableBytes]
      omega
    · simp only [readableBytes]
      omega
    · simp only [readableBytes]
      rw [writeAt_length _ _ _ (by rw [hr]; omega)]
      omega

theorem makeSpace_readable (b : Buffer) (len : Nat) (h : b.wf)
    (hlt : b.writableBytes < len) :
    (b.makeSpace len).readable = b.readable := by
  obtain ⟨h0, h1, h2⟩ := h
  simp only [makeSpace, writableBytes, prependableBytes, capacity] at *
  split
  · simp only [readable, readableBytes]
    apply extract_resizeList <;> omega
  · simp only [readable, readableBytes, Nat.add_sub_cancel_left]
    have hsrc : b.readable.length = b.writerIndex - b.readerIndex := by
      rw [readable_length b ⟨h0, h1, h2⟩]
      rfl
    calc extract (writeAt b.data kCheapPrepend b.readable) kCheapPrepend
          (b.writerIndex - b.readerIndex)
        = extract (writeAt b.data kCheapPrepend b.readable) kCheapPrepend
          b.readable.length := by rw [hsrc]
      _ = b.readable := extract_writeAt_self _ _ _ (by simp [kCheapPrepend] at *; omega)
      _ = extract b.data b.readerIndex (b.writerIndex - b.readerIndex) := rfl

theorem makeSpace_writable (b : Buffer) (len : Nat) (h : b.wf)
    (hlt : b.writableBytes < len) :
    len ≤ (b.makeSpace len).writableBytes := by
  obtain ⟨h0, h1, h2⟩ := h
  have hr : b.readable.length = b.writerIndex - b.readerIndex :=
    readable_length b ⟨h0, h1, h2⟩
  simp only [makeSpace, writableBytes, prependableBytes, capacity] at *
  split
  · simp only [resizeList_length]
    omega
  · simp only [readableBytes]
    rw [writeAt_length _ _ _ (by rw [hr]; omega)]
    omega

theorem wf_ensureWritableBytes (b : Buffer) (len : Nat) (h : b.wf) :
    (b.ensureWritableBytes len).wf := by
  simp only [ensureWritableBytes]
  split
  · exact wf_makeSpace b len h (by assumption)
  · exact h

theorem ensureWritableBytes_readable (b : Buffer) (len : Nat) (h : b.wf) :
    (b.ensureWritableBytes len).readable = b.readable := by
  simp only [ensureWritableBytes]
  split
  · exact makeSpace_readable b len h (by assumption)
  · rfl

theorem ensureWritableBytes_writable (b : Buffer) (len : Nat) (h : b.wf) :
    len ≤ (b.ensureWritableBytes len).writableBytes := by
  simp only [ensureWritableBytes]
  split
  · exact makeSpace_writable b len h (by assumption)
  · omega

theorem wf_append (b : Buffer) (src : List Nat) (h : b.wf) : (b.append src).wf := by
  have h1 := wf_ensureWritableBytes b src.length h
  have h2 := ensureWritableBytes_writable b src.length h
  set b1 := b.ensureWritableBytes src.length with hb1
  obtain ⟨g0, g1, g2⟩ := h1
  simp only [append, hasWritten, wf, ← hb1]
  simp only [writableBytes, capacity] at h2
  rw [writeAt_length _ _ _ (by omega)]
  refine ⟨by omega, by omega, by omega⟩

theorem append_readable (b : Buffer) (src : List Nat) (h : b.wf) :
    (b.append src).readable = b.readable ++ src := by
  have h1 := wf_ensureWritableBytes b src.length h
  have h2 := ensureWritableBytes_writable b src.length h
  have h3 := ensureWritableBytes_readable b src.length h
  set b1 := b.ensureWritableBytes src.length with hb1
  obtain ⟨g0, g1, g2⟩ := h1
  simp only [writableBytes, capacity] at h2
  simp only [append, hasWritten, readable, readableBytes, ← hb1]
  have hn : b1.writerIndex + src.length - b1.readerIndex
      = (b1.writerIndex - b1.readerIndex) + src.length := by omega
  rw [hn, extract_split]
  have hw : b1.readerIndex + (b1.writerIndex - b1.readerIndex) = b1.writerIndex := by
    omega
  rw [hw]
  have hbefore : extract (writeAt b1.data b1.writerIndex src) b1.readerIndex
      (b1.writerIndex - b1.readerIndex)
      = extract b1.data b1.readerIndex (b1.writerIndex - b1.readerIndex) :=
    extract_writeAt_before _ _ _ _ _ (by omega) (by omega)
  have hself : extract ((writeAt b1.data b1.writerIndex src).drop b1.writerIndex) 0
      src.length = src := by
    simp only [extract, List.drop_zero, List.drop_drop]
    have := extract_writeAt_self b1.data b1.writerIndex src (by omega)
    simpa [extract] using this
  rw [hbefore, hself]
  have : extract b1.data b1.readerIndex (b1.writerIndex - b1.readerIndex)
      = b1.readable := rfl
  rw [this, h3]
  rfl

theorem append_readableBytes (b : Buffer) (src : List Nat) (h : b.wf) :
    (b.append src).readableBytes = b.readableBytes + src.length := by
  have hl := append_readable b src h
  have hwf := wf_append b src h
  have := readable_length _ hwf
  rw [hl] at this
  rw [← this, List.length_append, readable_length b h]

theorem wf_prepend (b : Buffer) (src : List Nat) (h : b.wf)
    (hlen : src.length ≤ b.prependableBytes) : (b.prepend src).wf := by
  obtain ⟨h0, h1, h2⟩ := h
  simp only [prepend, wf, prependableBytes] at *
  rw [writeAt_length _ _ _ (by omega)]
  refine ⟨h0, by omega, h2⟩

end Buffer

/-- On either host byte order, the memory image of the network-order value is
the big-endian byte sequence. -/
theorem hostMemBytes_hostToNetwork (e : ByteOrder) (w v : Nat) (h : v < 256 ^ w) :
    hostMemBytes e w (hostToNetwork e w v) = toBytesBE w v := by
  cases e
  · rfl
  · simp only [hostMemBytes, hostToNetwork, byteSwap, toBytesBE]
    have hlen : ((toBytesLE w v).reverse).length = w := by
      simp [toBytesLE_length]
    have hlt : ∀ x ∈ (toBytesLE w v).reverse, x < 256 := by
      intro x hx
      exact toBytesLE_lt w v x (List.mem_reverse.mp hx)
    have := toBytesLE_fromBytesLE ((toBytesLE w v).reverse) hlt
    rw [hlen] at this
    exact this

/-- On either host byte order, reading back `w` bytes through the host-memory
image and converting from network order yields the big-endian value. -/
theorem networkToHost_hostMemValue (e : ByteOrder) (w : Nat) (bs : List Nat)
    (hlen : bs.length = w) (hlt : ∀ x ∈ bs, x < 256) :
    networkToHost e w (hostMemValue e bs) = fromBytesBE bs := by
  cases e
  · rfl
  · simp only [networkToHost, hostMemValue, byteSwap, fromBytesBE]
    have := toBytesLE_fromBytesLE bs hlt
    rw [hlen] at this
    rw [this]

namespace Buffer

theorem peekBytes_readable (b : Buffer) (w : Nat) (h : b.wf)
    (hw : w ≤ b.readableBytes) : b.peekBytes w = b.readable.take w := by
  obtain ⟨h0, h1, h2⟩ := h
  simp only [peekBytes, readable, extract, List.take_take]
  congr 1
  simp only [readableBytes] at hw ⊢
  omega

theorem appendInt_readable (e : ByteOrder) (w : Nat) (b : Buffer) (x : Nat)
    (h : b.wf) (hx : x < 256 ^ w) :
    (b.appendInt e w x).readable = b.readable ++ toBytesBE w x := by
  simp only [appendInt]
  rw [append_readable _ _ h, hostMemBytes_hostToNetwork e w x hx]

theorem wf_appendInt (e : ByteOrder) (w : Nat) (b : Buffer) (x : Nat)
    (h : b.wf) : (b.appendInt e w x).wf :=
  wf_append _ _ h

theorem peekInt_of_readable (e : ByteOrder) (w : Nat) (b : Buffer) (x : Nat)
    (rest : List Nat) (h : b.wf) (hx : x < 256 ^ w)
    (hr : b.readable = toBytesBE w x ++ rest) :
    b.peekInt e w = x := by
  have hwle : w ≤ b.readableBytes := by
    have := readable_length b h
    rw [hr] at this
    simp only [List.length_append, toBytesBE_length] at this
    omega
  have hpb : b.peekBytes w = toBytesBE w x := by
    rw [peekBytes_readable b w h hwle, hr]
    rw [List.take_append_of_le_length (by simp [toBytesBE_length])]
    have htl := List.take_length (toBytesBE w x)
    rw [toBytesBE_length] at htl
    exact htl
  simp only [peekInt, hpb]
  rw [networkToHost_hostMemValue e w _ (toBytesBE_length w x)
    (by intro y hy; exact toBytesLE_lt w x y (List.mem_reverse.mp hy))]
  exact fromBytesBE_toBytesBE w x hx

theorem wf_writeTail (b : Buffer) (src : List Nat) (h : b.wf)
    (hfit : src.length ≤ b.writableBytes) : (b.writeTail src).wf := by
  obtain ⟨h0, h1, h2⟩ := h
  simp only [writableBytes, capacity] at hfit
  simp only [writeTail, wf]
  rw [writeAt_length _ _ _ (by omega)]
  exact ⟨by omega, by omega, by omega⟩

theorem writeTail_readable (b : Buffer) (src : List Nat) (h : b.wf)
    (hfit : src.length ≤ b.writableBytes) :
    (b.writeTail src).readable = b.readable ++ src := by
  obtain ⟨h0, h1, h2⟩ := h
  simp only [writableBytes, capacity] at hfit
  simp only [writeTail, readable, readableBytes]
  have hn : b.writerIndex + src.length - b.readerIndex
      = (b.writerIndex - b.readerIndex) + src.length := by omega
  rw [hn, extract_split]
  have hw : b.readerIndex + (b.writerIndex - b.readerIndex) = b.writerIndex := by
    omega
  rw [hw]
  have hbefore : extract (writeAt b.data b.writerIndex src) b.readerIndex
      (b.writerIndex - b.readerIndex)
      = extract b.data b.readerIndex (b.writerIndex - b.readerIndex) :=
    extract_writeAt_before _ _ _ _ _ (by omega) (by omega)
  have hself : extract ((writeAt b.data b.writerIndex src).drop b.writerIndex) 0
      src.length = src := by
    simp only [extract, List.drop_zero, List.drop_drop]
    have := extract_writeAt_self b.data b.writerIndex src (by omega)
    simpa [extract] using this
  rw [hbefore, hself]

theorem readFd_full_eq_writeTail (b : Buffer) (bytes : List Nat) (h : b.wf)
    (hgt : b.writableBytes < bytes.length) :
    ({ b with
        data := writeAt b.data b.writerIndex (bytes.take b.writableBytes),
        writerIndex := b.data.length } : Buffer)
      = b.writeTail (bytes.take b.writableBytes) := by
  obtain ⟨h0, h1, h2⟩ := h
  simp only [writeTail]
  have hl : (bytes.take b.writableBytes).length = b.writableBytes := by
    simp only [List.length_take]
    omega
  rw [hl]
  simp only [writableBytes, capacity]
  congr 1
  omega

theorem wf_readFd (b : Buffer) (res : ReadvResult) (h : b.wf) :
    (b.readFd res).1.wf := by
  match res with
  | .err e => exact h
  | .ok bytes =>
    simp only [readFd]
    split
    · exact wf_writeTail b bytes h (by assumption)
    · rw [readFd_full_eq_writeTail b bytes h (by omega)]
      exact wf_append _ _ (wf_writeTail b _ h (by simp [List.length_take]))

theorem readFd_readable (b : Buffer) (bytes : List Nat) (h : b.wf) :
    (b.readFd (.ok bytes)).1.readable = b.readable ++ bytes := by
  simp only [readFd]
  split
  · exact writeTail_readable b bytes h (by assumption)
  · rw [readFd_full_eq_writeTail b bytes h (by omega)]
    have hwf2 := wf_writeTail b (bytes.take b.writableBytes) h
      (by simp [List.length_take])
    rw [append_readable _ _ hwf2,
      writeTail_readable b _ h (by simp [List.length_take]),
      List.append_assoc, List.take_append_drop]

end Buffer

theorem wf_retrieveAll (b : Buffer) (h : b.wf) : b.retrieveAll.wf := by
  obtain ⟨h0, h1, h2⟩ := h
  exact ⟨le_refl _, le_refl _, by simp only [Buffer.retrieveAll]; omega⟩

theorem wf_BufOp_apply (b : Buffer) (op : BufOp) (h : b.wf) (hv : op.valid b) :
    (op.apply b).wf := by
  cases op with
  | append src => exact Buffer.wf_append b src h
  | prepend src => exact Buffer.wf_prepend b src h hv
  | retrieve len => exact Buffer.wf_retrieve b len h hv
  | retrieveAll => exact wf_retrieveAll b h
  | appendInt e w x => exact Buffer.wf_appendInt e w b x h
  | readInt e w => exact Buffer.wf_retrieve b w h hv
  | hasWritten len => exact Buffer.wf_hasWritten b len h hv
  | makeSpace len => exact Buffer.wf_makeSpace b len h hv
  | readFd res => exact Buffer.wf_readFd b res h

theorem wf_applyOps (b : Buffer) (ops : List BufOp) (h : b.wf)
    (hv : validOps b ops) : (applyOps b ops).wf := by
  induction ops generalizing b with
  | nil => exact h
  | cons op rest ih =>
    obtain ⟨hv1, hv2⟩ := hv
    exact ih (op.apply b) (wf_BufOp_apply b op h hv1) hv2

theorem retrieve_readableBytes (b : Buffer) (len : Nat) (h : b.wf)
    (hlen : len ≤ b.readableBytes) :
    (b.retrieve len).readableBytes = b.readableBytes - len := by
  obtain ⟨h0, h1, h2⟩ := h
  by_cases hc : len < b.readableBytes
  · have hrw : b.retrieve len = { b with readerIndex := b.readerIndex + len } := by
      simp [Buffer.retrieve, hc]
    rw [hrw]
    simp only [Buffer.readableBytes] at *
    omega
  · have hrw : b.retrieve len = b.retrieveAll := by
      simp [Buffer.retrieve, hc]
    rw [hrw]
    simp only [Buffer.retrieveAll, Buffer.readableBytes] at *
    omega

/-! ## Claim theorems -/
/-- C2: when an append of `n` bytes finds `writableBytes() < n`,
`ensureWritableBytes`/`makeSpace` either (when
`writable + (reader − headroom) ≥ n`) compacts — `readerIndex_` becomes the
8-byte headroom, `writerIndex_` becomes headroom + readable, the backing
region is not enlarged — or otherwise resizes the backing region to
`writerIndex_ + n` leaving the indices unchanged; in both cases
`writableBytes() ≥ n` afterwards and the readable content is preserved. -/
theorem c2_makeSpace_growth_policy (b : Buffer) (n : Nat) (h : b.wf)
    (hlt : b.writableBytes < n) :
    (n ≤ b.writableBytes + (b.readerIndex - kCheapPrepend) →
      (b.ensureWritableBytes n).readerIndex = kCheapPrepend
      ∧ (b.ensureWritableBytes n).writerIndex = kCheapPrepend + b.readableBytes
      ∧ (b.ensureWritableBytes n).capacity = b.capacity)
    ∧ (b.writableBytes + (b.readerIndex - kCheapPrepend) < n →
      (b.ensureWritableBytes n).capacity = b.writerIndex + n
      ∧ (b.ensureWritableBytes n).readerIndex = b.readerIndex
      ∧ (b.ensureWritableBytes n).writerIndex = b.writerIndex)
    ∧ n ≤ (b.ensureWritableBytes n).writableBytes
    ∧ (b.ensureWritableBytes n).readable = b.readable := by
  obtain ⟨h0, h1, h2⟩ := h
  have hr : b.readable.length = b.writerIndex - b.readerIndex := by
    rw [Buffer.readable_length b ⟨h0, h1, h2⟩]
    rfl
  have hens : b.ensureWritableBytes n = b.makeSpace n := by
    simp [Buffer.ensureWritableBytes, hlt]
  refine ⟨?_, ?_,
    Buffer.ensureWritableBytes_writable b n ⟨h0, h1, h2⟩,
    Buffer.ensureWritableBytes_readable b n ⟨h0, h1, h2⟩⟩
  · intro hcompact
    have hcond : ¬(b.writableBytes + b.prependableBytes < n + kCheapPrepend) := by
      simp only [Buffer.writableBytes, Buffer.prependableBytes, Buffer.capacity,
        kCheapPrepend] at hcompact hlt ⊢
      omega
    have hms : b.ensureWritableBytes n
        = { data := writeAt b.data kCheapPrepend b.readable,
            readerIndex := kCheapPrepend,
            writerIndex := kCheapPrepend + b.readableBytes } := by
      rw [hens]
      simp [Buffer.makeSpace, hcond]
    rw [hms]
    refine ⟨rfl, rfl, ?_⟩
    simp only [Buffer.capacity]
    rw [writeAt_length _ _ _ ?_]
    rw [hr]
    simp only [Buffer.writableBytes, Buffer.prependableBytes, Buffer.capacity,
      kCheapPrepend] at hlt hcompact
    simp only [kCheapPrepend]
    omega
  · intro hexpand
    have hcond : b.writableBytes + b.prependableBytes < n + kCheapPrepend := by
      simp only [Buffer.writableBytes, Buffer.prependableBytes, Buffer.capacity,
        kCheapPrepend] at hexpand hlt ⊢
      omega
    have hms : b.ensureWritableBytes n
        = { b with data := resizeList b.data (b.writerIndex + n) } := by
      rw [hens]
      simp [Buffer.makeSpace, hcond]
    rw [hms]
    refine ⟨?_, rfl, rfl⟩
    simp only [Buffer.capacity, resizeList_length]

/-- Witness for `c2_makeSpace_growth_policy` at a concrete full buffer
(both hypotheses discharged; the compaction branch applies). -/
theorem c2_makeSpace_growth_policy_witness :
    let b : Buffer := { data := List.replicate 16 0, readerIndex := 12,
                        writerIndex := 16 }
    b.wf ∧ b.writableBytes < 3
    ∧ 3 ≤ (b.ensureWritableBytes 3).writableBytes
    ∧ (b.ensureWritableBytes 3).readable = b.readable
    ∧ ((b.ensureWritableBytes 3).readerIndex = kCheapPrepend
       ∧ (b.ensureWritableBytes 3).writerIndex = kCheapPrepend + b.readableBytes
       ∧ (b.ensureWritableBytes 3).capacity = b.capacity) :=
  ⟨by decide, by decide,
   (c2_makeSpace_growth_policy _ 3 (by decide) (by decide)).2.2.1,
   (c2_makeSpace_growth_policy _ 3 (by decide) (by decide)).2.2.2,
   (c2_makeSpace_growth_policy _ 3 (by decide) (by decide)).1 (by decide)⟩

/-- C3: `Buffer::readFd` hands `readv` two vectors — the writable tail and
the 64 KiB `extrabuf` (only one when the tail is already ≥ 64 KiB) — so a
single call transfers at most `writable + 64 KiB`; when the returned `n`
satisfies `0 ≤ n ≤ writableBytes()` only `writerIndex_` advances (by `n`,
reader index and capacity unchanged); when `n > writableBytes()` the
overflow is absorbed via `append` and the readable bytes grow by exactly
`n`; when `n < 0` the buffer is unchanged and `errno` is stored in
`*savedErrno`. -/
theorem c3_readFd_scatter (b : Buffer) (h : b.wf) :
    ((b.readFdIovcnt = 2 ↔ b.writableBytes < Buffer.extrabufSize)
      ∧ b.readFdIovCapacity ≤ b.writableBytes + Buffer.extrabufSize)
    ∧ (∀ bytes : List Nat, bytes.length ≤ b.writableBytes →
        (b.readFd (ReadvResult.ok bytes)).1.writerIndex
            = b.writerIndex + bytes.length
        ∧ (b.readFd (ReadvResult.ok bytes)).1.readerIndex = b.readerIndex
        ∧ (b.readFd (ReadvResult.ok bytes)).1.capacity = b.capacity
        ∧ (b.readFd (ReadvResult.ok bytes)).2.1 = (bytes.length : Int))
    ∧ (∀ bytes : List Nat,
        (b.readFd (ReadvResult.ok bytes)).1.readableBytes
            = b.readableBytes + bytes.length
        ∧ (b.readFd (ReadvResult.ok bytes)).1.readable = b.readable ++ bytes)
    ∧ (∀ e : Int, b.readFd (ReadvResult.err e) = (b, -1, some e)) := by
  obtain ⟨h0, h1, h2⟩ := h
  refine ⟨⟨?_, ?_⟩, ?_, ?_, fun e => rfl⟩
  · simp only [Buffer.readFdIovcnt]
    split
    · simp_all
    · simp_all
  · simp only [Buffer.readFdIovCapacity]
    split
    · omega
    · omega
  · intro bytes hle
    have hrw : b.readFd (ReadvResult.ok bytes)
        = (b.writeTail bytes, (bytes.length : Int), none) := by
      simp [Buffer.readFd, hle]
    rw [hrw]
    refine ⟨rfl, rfl, ?_, rfl⟩
    simp only [Buffer.writeTail, Buffer.capacity]
    rw [writeAt_length _ _ _ ?_]
    simp only [Buffer.writableBytes, Buffer.capacity] at hle
    omega
  · intro bytes
    have hread := Buffer.readFd_readable b bytes ⟨h0, h1, h2⟩
    refine ⟨?_, hread⟩
    have hwf' := Buffer.wf_readFd b (ReadvResult.ok bytes) ⟨h0, h1, h2⟩
    have hlen := Buffer.readable_length _ hwf'
    rw [hread, List.length_append, Buffer.readable_length b ⟨h0, h1, h2⟩] at hlen
    omega

/-- Witness for `c3_readFd_scatter` at a concrete buffer, exercising the
in-tail delivery, the overflow delivery and the error case. -/
theorem c3_readFd_scatter_witness :
    let b : Buffer := { data := List.replicate 12 0, readerIndex := 8,
                        writerIndex := 10 }
    b.wf
    ∧ ((b.readFd (ReadvResult.ok [1, 2])).1.writerIndex = 12
       ∧ (b.readFd (ReadvResult.ok [1, 2])).1.readerIndex = 8)
    ∧ (b.readFd (ReadvResult.ok [1, 2, 3, 4])).1.readableBytes = 6
    ∧ b.readFd (ReadvResult.err 11) = (b, -1, some 11) :=
  ⟨by decide,
   ⟨((c3_readFd_scatter _ (by decide)).2.1 [1, 2] (by decide)).1,
    ((c3_readFd_scatter _ (by decide)).2.1 [1, 2] (by decide)).2.1⟩,
   ((c3_readFd_scatter _ (by decide)).2.2.1 [1, 2, 3, 4]).1,
   (c3_readFd_scatter _ (by decide)).2.2.2 11⟩

/-- C1: after any sequence of operations on a freshly constructed buffer
(each invoked within its stated preconditions), the indices satisfy
`0 ≤ readerIndex_ ≤ writerIndex_ ≤ capacity` (`0 ≤` implicit in `Nat`),
`readableBytes()` equals `writerIndex_ − readerIndex_`, and a retrieve whose
length equals `readableBytes()` resets both indices to the 8-byte prepend
headroom. -/
theorem c1_buffer_index_invariant (initialSize : Nat) (ops : List BufOp)
    (hv : validOps (Buffer.mkBuffer initialSize) ops) :
    (applyOps (Buffer.mkBuffer initialSize) ops).readerIndex
        ≤ (applyOps (Buffer.mkBuffer initialSize) ops).writerIndex
    ∧ (applyOps (Buffer.mkBuffer initialSize) ops).writerIndex
        ≤ (applyOps (Buffer.mkBuffer initialSize) ops).capacity
    ∧ (applyOps (Buffer.mkBuffer initialSize) ops).readableBytes
        = (applyOps (Buffer.mkBuffer initialSize) ops).writerIndex
          - (applyOps (Buffer.mkBuffer initialSize) ops).readerIndex
    ∧ (∀ len, len = (applyOps (Buffer.mkBuffer initialSize) ops).readableBytes →
        ((applyOps (Buffer.mkBuffer initialSize) ops).retrieve len).readerIndex
            = kCheapPrepend
        ∧ ((applyOps (Buffer.mkBuffer initialSize) ops).retrieve len).writerIndex
            = kCheapPrepend) := by
  have hwf := wf_applyOps _ ops (Buffer.wf_mkBuffer initialSize) hv
  obtain ⟨g0, g1, g2⟩ := hwf
  refine ⟨g1, g2, rfl, ?_⟩
  rintro len rfl
  constructor
  · simp [Buffer.retrieve, Buffer.retrieveAll]
  · simp [Buffer.retrieve, Buffer.retrieveAll]

/-- Witness for `c1_buffer_index_invariant` on a concrete operation
sequence exercising append, retrieve, prepend, typed append/read,
`hasWritten`, `makeSpace` and both `readFd` outcomes. -/
theorem c1_buffer_index_invariant_witness :
    let ops : List BufOp :=
      [BufOp.append [1, 2, 3], BufOp.retrieve 2, BufOp.prepend [9],
       BufOp.appendInt ByteOrder.big 2 513, BufOp.readInt ByteOrder.big 1,
       BufOp.makeSpace 40, BufOp.hasWritten 1,
       BufOp.readFd (ReadvResult.ok [5, 5]), BufOp.readFd (ReadvResult.err 11),
       BufOp.retrieveAll]
    let b := applyOps (Buffer.mkBuffer 4) ops
    validOps (Buffer.mkBuffer 4) ops
    ∧ b.readerIndex ≤ b.writerIndex
    ∧ b.writerIndex ≤ b.capacity
    ∧ (b.retrieve b.readableBytes).readerIndex = kCheapPrepend :=
  ⟨by decide,
   (c1_buffer_index_invariant 4 _ (by decide)).1,
   (c1_buffer_index_invariant 4 _ (by decide)).2.1,
   ((c1_buffer_index_invariant 4 _ (by decide)).2.2.2 _ rfl).1⟩

/-- C7 counterexample: on a fresh buffer, `appendInt8(5)` then `readInt8()`
does not advance `readerIndex_` by 1 — the read drains the buffer completely,
so `retrieve` resets the index to the 8-byte headroom instead of advancing
it. -/
theorem c7_read_advance_counterexample :
    let b1 := (Buffer.mkBuffer 4).appendInt ByteOrder.little 1 5
    ¬(((b1.readInt ByteOrder.little 1).2).readerIndex = b1.readerIndex + 1) := by
  decide

theorem appendInts_wf_readable (e : ByteOrder) (ws : List IntWrite) :
    ∀ b : Buffer, b.wf → (∀ iw ∈ ws, iw.value < 256 ^ iw.width) →
      (appendInts e b ws).wf
      ∧ (appendInts e b ws).readable = b.readable ++ wsEncode ws := by
  induction ws with
  | nil =>
    intro b hb _
    exact ⟨hb, by simp [appendInts, wsEncode]⟩
  | cons iw rest ih =>
    intro b hb hv
    have hbv : iw.value < 256 ^ iw.width := hv iw (List.mem_cons_self _ _)
    have h1 := Buffer.wf_appendInt e iw.width b iw.value hb
    have h2 := Buffer.appendInt_readable e iw.width b iw.value hb hbv
    obtain ⟨ihw, ihr⟩ := ih (b.appendInt e iw.width iw.value) h1
      (fun x hx => hv x (List.mem_cons_of_mem _ hx))
    refine ⟨ihw, ?_⟩
    simp only [appendInts]
    rw [ihr, h2]
    simp [wsEncode, List.append_assoc]

theorem readInts_of_encoded (e : ByteOrder) (ws : List IntWrite) :
    ∀ b : Buffer, b.wf → (∀ iw ∈ ws, iw.value < 256 ^ iw.width) →
      b.readable = wsEncode ws →
      readInts e b ws = ws.map (fun iw => iw.value) := by
  induction ws with
  | nil =>
    intro b _ _ _
    rfl
  | cons iw rest ih =>
    intro b hb hv hr
    have hbv : iw.value < 256 ^ iw.width := hv iw (List.mem_cons_self _ _)
    have henc : b.readable = toBytesBE iw.width iw.value ++ wsEncode rest := by
      rw [hr]
      simp [wsEncode]
    have hlenr : b.readable.length = b.readableBytes := Buffer.readable_length b hb
    have hwle : iw.width ≤ b.readableBytes := by
      rw [henc, List.length_append, toBytesBE_length] at hlenr
      omega
    have hpeek := Buffer.peekInt_of_readable e iw.width b iw.value
      (wsEncode rest) hb hbv henc
    have hwf' := Buffer.wf_retrieve b iw.width hb hwle
    have hr' : (b.retrieve iw.width).readable = wsEncode rest := by
      rw [Buffer.retrieve_readable b iw.width hb hwle, henc,
        List.drop_left' (toBytesBE_length iw.width iw.value)]
    simp only [readInts, Buffer.readInt, Buffer.retrieveInt]
    rw [hpeek, ih (b.retrieve iw.width) hwf'
      (fun x hx => hv x (List.mem_cons_of_mem _ hx)) hr']
    simp

/-- C7 (amended: `readIntN` advances `readerIndex_` by `N/8` except when the
read drains the content completely, in which case both indices are reset to
the 8-byte headroom — either way consuming exactly `N/8` readable bytes):
for any widths in {8, 16, 32, 64} bits and in-range values, appending with
`appendIntN` and then reading with matching `readIntN` returns the written
values in FIFO order regardless of host byte order; `peekIntN` returns the
same value as `readIntN` and, being `const`, does not advance the reader. -/
theorem c7_int_roundtrip_amended (e : ByteOrder) (b : Buffer) (ws : List IntWrite)
    (hb : b.wf) (hempty : b.readableBytes = 0)
    (hw : ∀ iw ∈ ws, iw.width = 1 ∨ iw.width = 2 ∨ iw.width = 4 ∨ iw.width = 8)
    (hv : ∀ iw ∈ ws, iw.value < 256 ^ iw.width) :
    readInts e (appendInts e b ws) ws = ws.map (fun iw => iw.value)
    ∧ (∀ (b' : Buffer) (w : Nat), (b'.readInt e w).1 = b'.peekInt e w)
    ∧ (∀ (b' : Buffer) (w : Nat), b'.wf → w ≤ b'.readableBytes →
        (b'.retrieve w).readableBytes = b'.readableBytes - w
        ∧ (w < b'.readableBytes →
            (b'.retrieve w).readerIndex = b'.readerIndex + w
            ∧ (b'.retrieve w).writerIndex = b'.writerIndex)
        ∧ (w = b'.readableBytes →
            (b'.retrieve w).readerIndex = kCheapPrepend
            ∧ (b'.retrieve w).writerIndex = kCheapPrepend)) := by
  refine ⟨?_, fun b' w => rfl, ?_⟩
  · have hnil : b.readable = [] := by
      have := Buffer.readable_length b hb
      rw [hempty] at this
      exact List.eq_nil_of_length_eq_zero this
    obtain ⟨hwf1, hr1⟩ := appendInts_wf_readable e ws b hb hv
    rw [hnil, List.nil_append] at hr1
    exact readInts_of_encoded e ws (appendInts e b ws) hwf1 hv hr1
  · intro b' w hb' hwle
    refine ⟨retrieve_readableBytes b' w hb' hwle, ?_, ?_⟩
    · intro hlt
      have hrw : b'.retrieve w = { b' with readerIndex := b'.readerIndex + w } := by
        simp [Buffer.retrieve, hlt]
      rw [hrw]
      exact ⟨rfl, rfl⟩
    · intro heq
      have hrw : b'.retrieve w = b'.retrieveAll := by
        simp [Buffer.retrieve, heq]
      rw [hrw]
      exact ⟨rfl, rfl⟩

/-- Witness for `c7_int_roundtrip_amended`: a 16-bit and an 8-bit value
round-tripped through a fresh buffer on a little-endian host. -/
theorem c7_int_roundtrip_amended_witness :
    let ws : List IntWrite := [⟨2, 513⟩, ⟨1, 7⟩]
    readInts ByteOrder.little (appendInts ByteOrder.little (Buffer.mkBuffer 8) ws) ws
      = [513, 7] :=
  (c7_int_roundtrip_amended ByteOrder.little (Buffer.mkBuffer 8) _
    (by decide) (by decide) (by decide) (by decide)).1

theorem queueHighWater_not_mem_sendDirectEffs (c : Conn) (data : List Nat)
    (v : Nat) : Effect.queueHighWater v ∉ sendDirectEffs c data := by
  unfold sendDirectEffs
  split <;> simp

theorem queueHighWater_not_mem_sendWcEffs (c : Conn) (data : List Nat)
    (wres : WriteResult) (v : Nat) :
    Effect.queueHighWater v ∉ sendWcEffs c data wres := by
  unfold sendWcEffs
  split <;> simp

theorem queueHighWater_not_mem_sendEnableEffs (c : Conn) (v : Nat) :
    Effect.queueHighWater v ∉ sendEnableEffs c := by
  unfold sendEnableEffs
  split <;> simp

/-- C4: in `sendInLoop`, when `remaining > 0` unsent bytes are to be buffered
after the direct write and no fault occurred, the high-water callback is
queued if and only if the prior occupancy `oldLen` was strictly below
`highWaterMark_`, `oldLen + remaining` reaches it, and a high-water callback
is installed; any queued high-water callback carries the argument
`oldLen + remaining`; and when the occupancy already sits at or above the
mark nothing is queued — so for monotonically increasing occupancy the
callback fires at most once per upward crossing of the threshold. -/
theorem c4_high_water_crossing (c : Conn) (data : List Nat) (wres : WriteResult)
    (hstate : c.state ≠ StateE.kDisconnected)
    (hfault : sendFault c wres = false)
    (hrem : 0 < sendRemaining c data wres) :
    (Effect.queueHighWater (c.outputBuffer.readableBytes + sendRemaining c data wres)
        ∈ (sendInLoop c data wres).2
      ↔ (c.outputBuffer.readableBytes < c.highWaterMark
         ∧ c.highWaterMark ≤ c.outputBuffer.readableBytes + sendRemaining c data wres
         ∧ c.hasHighWaterCb = true))
    ∧ (∀ v, Effect.queueHighWater v ∈ (sendInLoop c data wres).2 →
        v = c.outputBuffer.readableBytes + sendRemaining c data wres)
    ∧ (c.highWaterMark ≤ c.outputBuffer.readableBytes →
        ∀ v, Effect.queueHighWater v ∉ (sendInLoop c data wres).2) := by
  have heff : (sendInLoop c data wres).2
      = sendDirectEffs c data ++ sendWcEffs c data wres
        ++ sendHwEffs c data wres ++ sendEnableEffs c := by
    simp [sendInLoop, hstate, hfault, hrem]
  have hmem : ∀ v, (Effect.queueHighWater v ∈ (sendInLoop c data wres).2
      ↔ Effect.queueHighWater v ∈ sendHwEffs c data wres) := by
    intro v
    rw [heff]
    simp only [List.mem_append]
    constructor
    · rintro (((h | h) | h) | h)
      · exact absurd h (queueHighWater_not_mem_sendDirectEffs c data v)
      · exact absurd h (queueHighWater_not_mem_sendWcEffs c data wres v)
      · exact h
      · exact absurd h (queueHighWater_not_mem_sendEnableEffs c v)
    · intro h
      exact Or.inl (Or.inr h)
  refine ⟨?_, ?_, ?_⟩
  · rw [hmem]
    unfold sendHwEffs
    split
    · rename_i hcond
      simp only [List.mem_singleton, Effect.queueHighWater.injEq]
      constructor
      · intro _
        exact ⟨hcond.2.1, hcond.1, hcond.2.2⟩
      · intro _
        trivial
    · rename_i hcond
      simp only [List.not_mem_nil, false_iff]
      intro hc
      exact hcond ⟨hc.2.1, hc.1, hc.2.2⟩
  · intro v
    rw [hmem]
    unfold sendHwEffs
    split
    · simp only [List.mem_singleton, Effect.queueHighWater.injEq]
      intro h
      exact h
    · simp
  · intro hge v
    rw [hmem]
    unfold sendHwEffs
    split
    · rename_i hcond
      omega
    · simp

/-- Witness for `c4_high_water_crossing`: with `highWaterMark = 4`, an empty
output buffer and a direct write of 2 of 6 bytes, the high-water callback is
queued with argument 4. -/
theorem c4_high_water_crossing_witness :
    let c : Conn :=
      { state := StateE.kConnected, channelWriting := false,
        outputBuffer := Buffer.mkBuffer 2, hasWriteCompleteCb := false,
        hasHighWaterCb := true, highWaterMark := 4 }
    Effect.queueHighWater 4
        ∈ (sendInLoop c [1, 2, 3, 4, 5, 6] (WriteResult.ok 2)).2 :=
  ((c4_high_water_crossing _ [1, 2, 3, 4, 5, 6] (WriteResult.ok 2)
      (by decide) (by decide) (by decide)).1).mpr (by decide)

theorem shutdownWrite_not_mem_sendDirectEffs (c : Conn) (data : List Nat) :
    Effect.shutdownWrite ∉ sendDirectEffs c data := by
  unfold sendDirectEffs
  split <;> simp

theorem shutdownWrite_not_mem_sendWcEffs (c : Conn) (data : List Nat)
    (wres : WriteResult) : Effect.shutdownWrite ∉ sendWcEffs c data wres := by
  unfold sendWcEffs
  split <;> simp

theorem shutdownWrite_not_mem_sendHwEffs (c : Conn) (data : List Nat)
    (wres : WriteResult) : Effect.shutdownWrite ∉ sendHwEffs c data wres := by
  unfold sendHwEffs
  split <;> simp

theorem shutdownWrite_not_mem_sendEnableEffs (c : Conn) :
    Effect.shutdownWrite ∉ sendEnableEffs c := by
  unfold sendEnableEffs
  split <;> simp

theorem shutdownWrite_not_mem_sendInLoop (c : Conn) (data : List Nat)
    (wres : WriteResult) :
    Effect.shutdownWrite ∉ (sendInLoop c data wres).2 := by
  unfold sendInLoop
  by_cases h1 : c.state = StateE.kDisconnected
  · simp [h1]
  · by_cases h2 : (sendFault c wres = false ∧ 0 < sendRemaining c data wres)
    · simp only [if_neg h1, if_pos h2, List.mem_append]
      rintro (((h | h) | h) | h)
      · exact shutdownWrite_not_mem_sendDirectEffs c data h
      · exact shutdownWrite_not_mem_sendWcEffs c data wres h
      · exact shutdownWrite_not_mem_sendHwEffs c data wres h
      · exact shutdownWrite_not_mem_sendEnableEffs c h
    · simp only [if_neg h1, if_neg h2, List.mem_append]
      rintro (h | h)
      · exact shutdownWrite_not_mem_sendDirectEffs c data h
      · exact shutdownWrite_not_mem_sendWcEffs c data wres h

theorem sendInLoop_ConnInv (c : Conn) (data : List Nat) (wres : WriteResult)
    (h : ConnInv c) : ConnInv (sendInLoop c data wres).1 := by
  obtain ⟨hwf, himp⟩ := h
  unfold sendInLoop
  by_cases h1 : c.state = StateE.kDisconnected
  · simp only [if_pos h1]
    exact ⟨hwf, himp⟩
  · by_cases h2 : (sendFault c wres = false ∧ 0 < sendRemaining c data wres)
    · simp only [if_neg h1, if_pos h2]
      exact ⟨Buffer.wf_append _ _ hwf, fun _ => rfl⟩
    · simp only [if_neg h1, if_neg h2]
      exact ⟨hwf, himp⟩

/-- C5: over the send/shutdown/write-drain steps, starting from any state
satisfying the connection invariant (well-formed output buffer; unsent bytes
imply write interest): the invariant is preserved; `shutdown()` on a
Connected connection sets Disconnecting and schedules shutdown-in-loop;
`shutdownInLoop` half-closes exactly when the channel's write interest is
off; every emitted half-close happens at a moment when the output buffer is
empty (never while unsent bytes remain); and a half-close emitted from
`handleWrite` happens only in state Disconnecting, right after the buffer
drained to empty. -/
theorem c5_halfclose_after_drain (c : Conn) (op : ConnOp)
    (h : ConnInv c) (hv : op.valid c) :
    ConnInv (op.step c).1
    ∧ (op = ConnOp.shutdown → c.state = StateE.kConnected →
        (op.step c).1.state = StateE.kDisconnecting
        ∧ (op.step c).2 = [Effect.runShutdownInLoop])
    ∧ (op = ConnOp.shutdownInLoop →
        (Effect.shutdownWrite ∈ (op.step c).2 ↔ c.channelWriting = false))
    ∧ (Effect.shutdownWrite ∈ (op.step c).2 →
        (op.step c).1.outputBuffer.readableBytes = 0
        ∧ (op.step c).1.channelWriting = false)
    ∧ (∀ w, op = ConnOp.handleWrite w → Effect.shutdownWrite ∈ (op.step c).2 →
        c.state = StateE.kDisconnecting) := by
  obtain ⟨hwf, himp⟩ := h
  cases op with
  | sendInLoop data wres =>
    simp only [ConnOp.step]
    refine ⟨sendInLoop_ConnInv c data wres ⟨hwf, himp⟩, ?_, ?_, ?_, ?_⟩
    · intro heq
      simp at heq
    · intro heq
      simp at heq
    · intro hm
      exact absurd hm (shutdownWrite_not_mem_sendInLoop c data wres)
    · intro w heq
      simp at heq
  | shutdown =>
    simp only [ConnOp.step]
    by_cases h1 : c.state = StateE.kConnected
    · have hstep : Muduo.shutdown c
          = ({ c with state := StateE.kDisconnecting },
             [Effect.runShutdownInLoop]) := by
        simp [Muduo.shutdown, h1]
      refine ⟨?_, ?_, ?_, ?_, ?_⟩
      · rw [hstep]
        exact ⟨hwf, himp⟩
      · intro _ _
        rw [hstep]
        exact ⟨rfl, rfl⟩
      · intro heq
        simp at heq
      · rw [hstep]
        intro hm
        simp at hm
      · intro w heq
        simp at heq
    · have hstep : Muduo.shutdown c = (c, []) := by
        simp [Muduo.shutdown, h1]
      refine ⟨?_, ?_, ?_, ?_, ?_⟩
      · rw [hstep]
        exact ⟨hwf, himp⟩
      · intro _ hcontra
        exact absurd hcontra h1
      · intro heq
        simp at heq
      · rw [hstep]
        intro hm
        simp at hm
      · intro w heq
        simp at heq
  | shutdownInLoop =>
    simp only [ConnOp.step]
    by_cases h1 : c.channelWriting
    · have hstep : Muduo.shutdownInLoop c = (c, []) := by
        simp [Muduo.shutdownInLoop, h1]
      refine ⟨?_, ?_, ?_, ?_, ?_⟩
      · rw [hstep]
        exact ⟨hwf, himp⟩
      · intro heq
        simp at heq
      · intro _
        rw [hstep]
        simp [h1]
      · rw [hstep]
        intro hm
        simp at hm
      · intro w heq
        simp at heq
    · have hstep : Muduo.shutdownInLoop c = (c, [Effect.shutdownWrite]) := by
        simp [Muduo.shutdownInLoop, h1]
      have hfalse : c.channelWriting = false := by
        simpa using h1
      have hempty : c.outputBuffer.readableBytes = 0 := by
        by_contra hne
        exact h1 (himp (Nat.pos_of_ne_zero hne))
      refine ⟨?_, ?_, ?_, ?_, ?_⟩
      · rw [hstep]
        exact ⟨hwf, himp⟩
      · intro heq
        simp at heq
      · intro _
        rw [hstep]
        simp [hfalse]
      · rw [hstep]
        intro _
        exact ⟨hempty, hfalse⟩
      · intro w heq
        simp at heq
  | handleWrite wres =>
    simp only [ConnOp.step]
    by_cases h1 : c.channelWriting
    · cases wres with
      | err e =>
        have hstep : Muduo.handleWrite c (WriteResult.err e)
            = (c, [Effect.socketWrite c.outputBuffer.readableBytes]) := by
          simp [Muduo.handleWrite, h1]
        refine ⟨?_, ?_, ?_, ?_, ?_⟩
        · rw [hstep]
          exact ⟨hwf, himp⟩
        · intro heq
          simp at heq
        · intro heq
          simp at heq
        · rw [hstep]
          intro hm
          simp at hm
        · intro w heq
          rw [hstep]
          intro hm
          simp at hm
      | ok n =>
        have hn : n ≤ c.outputBuffer.readableBytes := by
          simpa [ConnOp.valid] using hv
        by_cases h2 : 0 < n
        · have hwf1 := Buffer.wf_retrieve _ _ hwf hn
          have hrb1 := retrieve_readableBytes _ _ hwf hn
          by_cases h3 : (c.outputBuffer.retrieve n).readableBytes = 0
          · by_cases h4 : c.state = StateE.kDisconnecting
            · have hstep : Muduo.handleWrite c (WriteResult.ok n)
                  = ({ c with
                       outputBuffer := c.outputBuffer.retrieve n,
                       channelWriting := false },
                     [Effect.socketWrite c.outputBuffer.readableBytes]
                       ++ (if c.hasWriteCompleteCb then
                             [Effect.queueWriteComplete] else [])
                       ++ [Effect.shutdownWrite]) := by
                simp [Muduo.handleWrite, Muduo.shutdownInLoop, h1, h2, h3, h4]
              refine ⟨?_, ?_, ?_, ?_, ?_⟩
              · rw [hstep]
                refine ⟨hwf1, fun hpos => ?_⟩
                dsimp only at hpos
                omega
              · intro heq
                simp at heq
              · intro heq
                simp at heq
              · rw [hstep]
                intro _
                exact ⟨h3, rfl⟩
              · intro w _ _
                exact h4
            · have hstep : Muduo.handleWrite c (WriteResult.ok n)
                  = ({ c with
                       outputBuffer := c.outputBuffer.retrieve n,
                       channelWriting := false },
                     [Effect.socketWrite c.outputBuffer.readableBytes]
                       ++ (if c.hasWriteCompleteCb then
                             [Effect.queueWriteComplete] else [])) := by
                simp [Muduo.handleWrite, Muduo.shutdownInLoop, h1, h2, h3, h4]
              refine ⟨?_, ?_, ?_, ?_, ?_⟩
              · rw [hstep]
                refine ⟨hwf1, fun hpos => ?_⟩
                dsimp only at hpos
                omega
              · intro heq
                simp at heq
              · intro heq
                simp at heq
              · rw [hstep]
                intro hm
                simp only [List.mem_append] at hm
                rcases hm with hm | hm
                · simp at hm
                · revert hm
                  split <;> simp
              · intro w _
                rw [hstep]
                intro hm
                simp only [List.mem_append] at hm
                rcases hm with hm | hm
                · simp at hm
                · revert hm
                  split <;> simp
          · have hstep : Muduo.handleWrite c (WriteResult.ok n)
                = ({ c with outputBuffer := c.outputBuffer.retrieve n },
                   [Effect.socketWrite c.outputBuffer.readableBytes]) := by
              simp [Muduo.handleWrite, h1, h2, h3]
            refine ⟨?_, ?_, ?_, ?_, ?_⟩
            · rw [hstep]
              refine ⟨hwf1, fun _ => ?_⟩
              simpa using h1
            · intro heq
              simp at heq
            · intro heq
              simp at heq
            · rw [hstep]
              intro hm
              simp at hm
            · intro w _
              rw [hstep]
              intro hm
              simp at hm
        · have hstep : Muduo.handleWrite c (WriteResult.ok n)
              = (c, [Effect.socketWrite c.outputBuffer.readableBytes]) := by
            simp [Muduo.handleWrite, h1, h2]
          refine ⟨?_, ?_, ?_, ?_, ?_⟩
          · rw [hstep]
            exact ⟨hwf, himp⟩
          · intro heq
            simp at heq
          · intro heq
            simp at heq
          · rw [hstep]
            intro hm
            simp at hm
          · intro w _
            rw [hstep]
            intro hm
            simp at hm
    · have hstep : Muduo.handleWrite c wres = (c, []) := by
        simp [Muduo.handleWrite, h1]
      refine ⟨?_, ?_, ?_, ?_, ?_⟩
      · rw [hstep]
        exact ⟨hwf, himp⟩
      · intro heq
        simp at heq
      · intro heq
        simp at heq
      · rw [hstep]
        intro hm
        simp at hm
      · intro w _
        rw [hstep]
        intro hm
        simp at hm

/-- Witness for `c5_halfclose_after_drain`: a Disconnecting connection with
2 buffered bytes whose `handleWrite` drains them — the half-close is emitted
in that very step, with the buffer empty afterwards. -/
theorem c5_halfclose_after_drain_witness :
    let c : Conn :=
      { state := StateE.kDisconnecting, channelWriting := true,
        outputBuffer := { data := List.replicate 12 0, readerIndex := 8,
                          writerIndex := 10 },
        hasWriteCompleteCb := false, hasHighWaterCb := false,
        highWaterMark := 67108864 }
    let op := ConnOp.handleWrite (WriteResult.ok 2)
    ConnInv (op.step c).1
    ∧ (Effect.shutdownWrite ∈ (op.step c).2 →
        (op.step c).1.outputBuffer.readableBytes = 0
        ∧ (op.step c).1.channelWriting = false) :=
  ⟨(c5_halfclose_after_drain _ _ ⟨by decide, by decide⟩ (by decide)).1,
   (c5_halfclose_after_drain _ _ ⟨by decide, by decide⟩ (by decide)).2.2.2.1⟩

/-- C6 counterexample: `forceClose()` on a `kConnecting` connection is a
no-op — the guard is `state_ == kConnected || state_ == kDisconnecting`, so
the state does not become `kDisconnecting` and no close-in-loop step is
queued, contrary to the claim's "Connecting or Connected". -/
theorem c6_forceClose_connecting_counterexample :
    let c : Conn :=
      { state := StateE.kConnecting, channelWriting := false,
        outputBuffer := Buffer.mkBuffer 0, hasWriteCompleteCb := false,
        hasHighWaterCb := false, highWaterMark := 67108864 }
    forceClose c = (c, []) ∧
      ¬((forceClose c).1.state = StateE.kDisconnecting) ∧
      ¬(Effect.queueForceCloseInLoop ∈ (forceClose c).2) := by
  decide

/-- C6 (amended: `Connected or Disconnecting` in place of `Connecting or
Connected`): for every connection whose state is `kConnected` or
`kDisconnecting`, `forceClose()` transitions the state to `kDisconnecting`
and queues the in-loop close step; `forceCloseInLoop` on a `kDisconnecting`
connection synthesizes the peer-FIN path (`handleClose`: channel detached,
connection-down callback, close callback) and leaves state
`kDisconnected`. -/
theorem c6_forceClose_amended (c : Conn)
    (h : c.state = StateE.kConnected ∨ c.state = StateE.kDisconnecting) :
    (forceClose c).1.state = StateE.kDisconnecting
    ∧ (forceClose c).2 = [Effect.queueForceCloseInLoop]
    ∧ (∀ c' : Conn, c'.state = StateE.kDisconnecting →
        (forceCloseInLoop c').1.state = StateE.kDisconnected
        ∧ (forceCloseInLoop c').2
          = [Effect.disableAll, Effect.connectionCbCall, Effect.closeCbCall]) := by
  refine ⟨?_, ?_, ?_⟩
  · simp [forceClose, if_pos h]
  · simp [forceClose, if_pos h]
  · intro c' hc'
    constructor
    · simp [forceCloseInLoop, hc', handleClose]
    · simp [forceCloseInLoop, hc', handleClose]

/-- Witness for `c6_forceClose_amended` at a concrete `kConnected`
connection. -/
theorem c6_forceClose_amended_witness :
    let c : Conn :=
      { state := StateE.kConnected, channelWriting := false,
        outputBuffer := Buffer.mkBuffer 0, hasWriteCompleteCb := false,
        hasHighWaterCb := false, highWaterMark := 67108864 }
    (forceClose c).1.state = StateE.kDisconnecting
    ∧ (forceClose c).2 = [Effect.queueForceCloseInLoop]
    ∧ (∀ c' : Conn, c'.state = StateE.kDisconnecting →
        (forceCloseInLoop c').1.state = StateE.kDisconnected
        ∧ (forceCloseInLoop c').2
          = [Effect.disableAll, Effect.connectionCbCall, Effect.closeCbCall]) :=
  c6_forceClose_amended _ (Or.inl rfl)

/-- C8: on `accept` failure with `errno == EMFILE`, `Acceptor::handleRead`
performs exactly, in order: close the idle placeholder, `::accept` on the
listening socket to drain the pending connection, close the drained
descriptor, reopen the placeholder on `/dev/null`; the listen queue shrinks,
so repeated readiness makes forward progress. -/
theorem c8_acceptor_emfile (a : AcceptorSt) (d ni : Int) (hp : 0 < a.pending) :
    (acceptorHandleRead a (AcceptOutcome.err EMFILE d ni)).2
      = [AcceptorSys.closeFd a.idleFd, AcceptorSys.acceptFd a.listenFd,
         AcceptorSys.closeFd d, AcceptorSys.openDevNull]
    ∧ (acceptorHandleRead a (AcceptOutcome.err EMFILE d ni)).1.idleFd = ni
    ∧ (acceptorHandleRead a (AcceptOutcome.err EMFILE d ni)).1.pending < a.pending := by
  refine ⟨?_, ?_, ?_⟩
  · simp [acceptorHandleRead]
  · simp [acceptorHandleRead]
  · simp [acceptorHandleRead]
    omega

/-- Witness for `c8_acceptor_emfile` at a concrete acceptor state. -/
theorem c8_acceptor_emfile_witness :
    let a : AcceptorSt :=
      { listenFd := 3, idleFd := 4, pending := 2, hasNewConnectionCb := true }
    (acceptorHandleRead a (AcceptOutcome.err EMFILE 5 6)).2
      = [AcceptorSys.closeFd 4, AcceptorSys.acceptFd 3,
         AcceptorSys.closeFd 5, AcceptorSys.openDevNull]
    ∧ (acceptorHandleRead a (AcceptOutcome.err EMFILE 5 6)).1.idleFd = 6
    ∧ (acceptorHandleRead a (AcceptOutcome.err EMFILE 5 6)).1.pending < 2 :=
  c8_acceptor_emfile _ 5 6 (by decide)

/-- C9: `Socket::accept(peeraddr)` returns the non-negative accepted
descriptor and overwrites `*peeraddr` with the peer address on success; on
failure it returns `-1` and leaves `*peeraddr` completely unchanged. -/
theorem c9_socket_accept_atomicity (res : KernelAccept) (peeraddr : SockAddr6) :
    (∀ fd peer, res = KernelAccept.ok fd peer →
      socketAccept res peeraddr = ((fd : Int), peer) ∧ 0 ≤ (fd : Int))
    ∧ (∀ e, res = KernelAccept.err e →
      socketAccept res peeraddr = (-1, peeraddr)) := by
  constructor
  · rintro fd peer rfl
    refine ⟨?_, Int.ofNat_nonneg fd⟩
    simp [socketAccept, socketsAccept]
  · rintro e rfl
    simp [socketAccept, socketsAccept]

/-- Witness for `c9_socket_accept_atomicity`: a success and a failure at
concrete inputs. -/
theorem c9_socket_accept_atomicity_witness :
    let peer : SockAddr6 := { port := 443, addrBytes := List.replicate 16 1 }
    let old : SockAddr6 := { port := 9, addrBytes := List.replicate 16 2 }
    socketAccept (KernelAccept.ok 7 peer) old = (7, peer)
    ∧ socketAccept (KernelAccept.err 11) old = (-1, old) :=
  ⟨((c9_socket_accept_atomicity _ _).1 7 _ rfl).1,
   (c9_socket_accept_atomicity _ _).2 11 rfl⟩

/-- C10: `TcpConnection::send` in any state other than `kConnected` is a
silent no-op — the connection (state, output buffer, write interest) is
unchanged and no effect (socket write, callback scheduling, task queueing)
is emitted; likewise `sendInLoop` entered in state `kDisconnected` gives up
writing immediately. -/
theorem c10_send_not_connected_noop (c : Conn) (data : List Nat)
    (wres : WriteResult) (inLoopThread : Bool) :
    (c.state ≠ StateE.kConnected → send c data wres inLoopThread = (c, []))
    ∧ (c.state = StateE.kDisconnected → sendInLoop c data wres = (c, [])) := by
  constructor
  · intro h
    simp [send, h]
  · intro h
    simp [sendInLoop, h]

/-- Witness for `c10_send_not_connected_noop` at a concrete `kDisconnected`
connection. -/
theorem c10_send_not_connected_noop_witness :
    let c : Conn :=
      { state := StateE.kDisconnected, channelWriting := false,
        outputBuffer := Buffer.mkBuffer 0, hasWriteCompleteCb := true,
        hasHighWaterCb := true, highWaterMark := 67108864 }
    send c [1, 2, 3] (WriteResult.ok 3) true = (c, [])
    ∧ sendInLoop c [1, 2, 3] (WriteResult.ok 3) = (c, []) :=
  ⟨(c10_send_not_connected_noop _ [1, 2, 3] (WriteResult.ok 3) true).1 (by decide),
   (c10_send_not_connected_noop _ [1, 2, 3] (WriteResult.ok 3) true).2 (by decide)⟩

end Muduo
